import Mathlib

/-!
Verification development for `scripts/lib/local-cover-image.py`, a deterministic
cover-image generator: slug → MD5-derived 32-bit seed → palette selection →
vertical gradient → translucent shape overlay → grain → vignette.

Shallow-embedding conventions:

* Machine integers are `ℕ`/`ℤ` with explicit `% 2^32` where the Python code
  relies on 32-bit arithmetic (inside MD5 and the PRNG word stream).
* Python floats are modelled as exact rationals `ℚ`.  `round` is Python 3's
  round-half-to-even (`pyRound`); `int(...)` is truncation toward zero
  (`pyInt`).
* `hashlib.md5` is implemented concretely (RFC 1321) on byte lists; a slug is
  its list of UTF-8 bytes.
* `random.Random(seed)` is modelled as an abstract stream of raw 32-bit
  outputs (`mkStream seed : ℕ → ℕ`, one word per `genrand_uint32` call,
  consumed at an explicit cursor).  On top of the stream, `getrandbits`,
  `_randbelow`, `random`, `uniform`, `choice` and `randint` follow CPython's
  derivations exactly.  The rejection loops of `_randbelow` and of the
  `while c2 == c1` palette resampling are unbounded in Python, so they take
  fuel and return `Option`.
* The 2-D raster library (PIL) is, as the specification states, an external
  capability: ellipse/line hit-testing and Gaussian blur are abstract fields
  of a `Prims` structure, while everything the script itself determines
  (sizes, per-pixel compositing arithmetic, draw order, alpha values) is
  concrete.  PIL filters and draws preserve the image size, which the `Img`
  structure records by construction.
-/

namespace CoverGen

/-! ### Python numeric primitives -/

/-- Python 3 `round` on a rational: round half to even, returning an integer. -/
def pyRound (q : ℚ) : ℤ :=
  if q - (⌊q⌋ : ℚ) < 1/2 then ⌊q⌋
  else if 1/2 < q - (⌊q⌋ : ℚ) then ⌊q⌋ + 1
  else if 2 ∣ ⌊q⌋ then ⌊q⌋ else ⌊q⌋ + 1

/-- Python `int(...)` on a rational: truncation toward zero. -/
def pyInt (q : ℚ) : ℤ := if q < 0 then -⌊-q⌋ else ⌊q⌋

/-! ### MD5 (`hashlib.md5`), RFC 1321, on lists of bytes -/

/-- Per-round shift amounts. -/
def sTab : List ℕ :=
  [7, 12, 17, 22, 7, 12, 17, 22, 7, 12, 17, 22, 7, 12, 17, 22,
   5, 9, 14, 20, 5, 9, 14, 20, 5, 9, 14, 20, 5, 9, 14, 20,
   4, 11, 16, 23, 4, 11, 16, 23, 4, 11, 16, 23, 4, 11, 16, 23,
   6, 10, 15, 21, 6, 10, 15, 21, 6, 10, 15, 21, 6, 10, 15, 21]

/-- Sine-derived round constants `⌊2^32·|sin(i+1)|⌋`. -/
def kTab : List ℕ :=
  [0xd76aa478, 0xe8c7b756, 0x242070db, 0xc1bdceee,
   0xf57c0faf, 0x4787c62a, 0xa8304613, 0xfd469501,
   0x698098d8, 0x8b44f7af, 0xffff5bb1, 0x895cd7be,
   0x6b901122, 0xfd987193, 0xa679438e, 0x49b40821,
   0xf61e2562, 0xc040b340, 0x265e5a51, 0xe9b6c7aa,
   0xd62f105d, 0x02441453, 0xd8a1e681, 0xe7d3fbc8,
   0x21e1cde6, 0xc33707d6, 0xf4d50d87, 0x455a14ed,
   0xa9e3e905, 0xfcefa3f8, 0x676f02d9, 0x8d2a4c8a,
   0xfffa3942, 0x8771f681, 0x6d9d6122, 0xfde5380c,
   0xa4beea44, 0x4bdecfa9, 0xf6bb4b60, 0xbebfbc70,
   0x289b7ec6, 0xeaa127fa, 0xd4ef3085, 0x04881d05,
   0xd9d4d039, 0xe6db99e5, 0x1fa27cf8, 0xc4ac5665,
   0xf4292244, 0x432aff97, 0xab9423a7, 0xfc93a039,
   0x655b59c3, 0x8f0ccc92, 0xffeff47d, 0x85845dd1,
   0x6fa87e4f, 0xfe2ce6e0, 0xa3014314, 0x4e0811a1,
   0xf7537e82, 0xbd3af235, 0x2ad7d2bb, 0xeb86d391]

/-- Bitwise complement on 32 bits. -/
def not32 (x : ℕ) : ℕ := x ^^^ 0xffffffff

/-- 32-bit left rotation (argument is already reduced mod `2^32`). -/
def rotl32 (x n : ℕ) : ℕ := ((x <<< n) % 4294967296) ||| (x >>> (32 - n))

/-- The four MD5 round functions, selected by round index. -/
def md5F (i b c d : ℕ) : ℕ :=
  if i < 16 then (b &&& c) ||| (not32 b &&& d)
  else if i < 32 then (d &&& b) ||| (not32 d &&& c)
  else if i < 48 then b ^^^ c ^^^ d
  else c ^^^ (b ||| not32 d)

/-- Message-word index used in round `i`. -/
def md5G (i : ℕ) : ℕ :=
  if i < 16 then i
  else if i < 32 then (5 * i + 1) % 16
  else if i < 48 then (3 * i + 5) % 16
  else (7 * i) % 16

/-- One MD5 round applied to the running `(a,b,c,d)` state. -/
def md5Round (ws : List ℕ) (t : ℕ × ℕ × ℕ × ℕ) (i : ℕ) : ℕ × ℕ × ℕ × ℕ :=
  let a := t.1
  let b := t.2.1
  let c := t.2.2.1
  let d := t.2.2.2
  let f := (md5F i b c d + a + kTab.getD i 0 + ws.getD (md5G i) 0) % 4294967296
  (d, (b + rotl32 f (sTab.getD i 0)) % 4294967296, b, c)

/-- Process one 16-word chunk, adding the result to the incoming registers. -/
def md5Chunk (ws : List ℕ) (r : ℕ × ℕ × ℕ × ℕ) : ℕ × ℕ × ℕ × ℕ :=
  let t := (List.range 64).foldl (md5Round ws) r
  ((r.1 + t.1) % 4294967296, (r.2.1 + t.2.1) % 4294967296,
   (r.2.2.1 + t.2.2.1) % 4294967296, (r.2.2.2 + t.2.2.2) % 4294967296)

/-- Little-endian 32-bit words from the padded byte list (4 bytes each). -/
def toWords : List ℕ → List ℕ
  | b0 :: b1 :: b2 :: b3 :: rest =>
      (b0 % 256 + 256 * (b1 % 256) + 65536 * (b2 % 256) + 16777216 * (b3 % 256))
        :: toWords rest
  | _ => []

/-- Fold the compression function over consecutive 16-word chunks. -/
def md5ChunksW : (ℕ × ℕ × ℕ × ℕ) → List ℕ → ℕ × ℕ × ℕ × ℕ
  | r, w0 :: w1 :: w2 :: w3 :: w4 :: w5 :: w6 :: w7 ::
       w8 :: w9 :: w10 :: w11 :: w12 :: w13 :: w14 :: w15 :: rest =>
      md5ChunksW
        (md5Chunk [w0, w1, w2, w3, w4, w5, w6, w7,
                   w8, w9, w10, w11, w12, w13, w14, w15] r) rest
  | r, _ => r

/-- Eight little-endian bytes of the 64-bit message bit length. -/
def le8 (v : ℕ) : List ℕ :=
  [v % 256, (v >>> 8) % 256, (v >>> 16) % 256, (v >>> 24) % 256,
   (v >>> 32) % 256, (v >>> 40) % 256, (v >>> 48) % 256, (v >>> 56) % 256]

/-- Four little-endian bytes of a 32-bit register. -/
def toLE4 (x : ℕ) : List ℕ :=
  [x % 256, (x >>> 8) % 256, (x >>> 16) % 256, (x >>> 24) % 256]

/-- MD5 digest (16 bytes) of a byte list: pad to a multiple of 64 bytes
(`0x80`, zeros, 8-byte little-endian bit length), then compress. -/
def md5Digest (msg : List ℕ) : List ℕ :=
  let L := msg.length
  let padded := msg ++ 128 :: (List.replicate ((119 - L % 64) % 64) 0 ++ le8 (8 * L))
  let r := md5ChunksW (0x67452301, 0xefcdab89, 0x98badcfe, 0x10325476) (toWords padded)
  toLE4 r.1 ++ toLE4 r.2.1 ++ toLE4 r.2.2.1 ++ toLE4 r.2.2.2

/-- Hex digits (values `0..15`) of the digest, as `hexdigest()` lists them:
high nibble then low nibble of each byte. -/
def md5Hex (msg : List ℕ) : List ℕ :=
  (md5Digest msg).foldr (fun b acc => (b / 16) % 16 :: b % 256 % 16 :: acc) []

/-- `int(s, 16)` on a list of hex-digit values. -/
def hexVal (ds : List ℕ) : ℕ := ds.foldl (fun a d => 16 * a + d) 0

/-- `_seed_from_slug`: `int(hashlib.md5(slug.encode("utf-8")).hexdigest()[:8], 16)`.
The slug is given by its UTF-8 bytes. -/
def seedFromSlug (slug : List ℕ) : ℕ := hexVal ((md5Hex slug).take 8)

/-! ### CPython `random.Random` on an abstract 32-bit word stream

A generator instance is a stream `g : ℕ → ℕ` of raw `genrand_uint32` outputs
(reduced mod `2^32` at the point of use) together with a cursor counting how
many words have been consumed.  `Prims.mkStream seed` produces the stream of
the Mersenne-Twister instance `random.Random(seed)`; its internals are outside
the repository, so the stream itself is abstract while every derived sampling
procedure below follows CPython exactly. -/

/-- The word of the stream at cursor `c`, as a 32-bit value. -/
def genrand (g : ℕ → ℕ) (c : ℕ) : ℕ := g c % 4294967296

/-- `int.bit_length` (fuel-structural so that it evaluates by `rfl`). -/
def bitLenAux : ℕ → ℕ → ℕ
  | 0, _ => 0
  | f + 1, n => if n = 0 then 0 else bitLenAux f (n / 2) + 1

/-- `n.bit_length()`: number of bits needed to represent `n`. -/
def bitLen (n : ℕ) : ℕ := bitLenAux n n

/-- `getrandbits(k)` for `k ≤ 32`: the next word shifted down, consuming one
word at cursor `c`. -/
def getrandbits (g : ℕ → ℕ) (k c : ℕ) : ℕ := genrand g c >>> (32 - k)

/-- `Random._randbelow(n)`: draw `bit_length n` bits, rejecting while the
result is `≥ n`.  The Python loop is unbounded, so it takes fuel; a successful
draw returns the value and the advanced cursor. -/
def randbelow (g : ℕ → ℕ) (n : ℕ) : ℕ → ℕ → Option (ℕ × ℕ)
  | 0, _ => none
  | fuel + 1, c =>
      if getrandbits g (bitLen n) c < n then some (getrandbits g (bitLen n) c, c + 1)
      else randbelow g n fuel (c + 1)

/-- `random()`: `(a*2^26 + b) / 2^53` with `a`,`b` the next two words shifted
down by 5 and 6 bits; consumes the words at cursors `c` and `c+1`. -/
def randomV (g : ℕ → ℕ) (c : ℕ) : ℚ :=
  (((genrand g c >>> 5) * 67108864 + (genrand g (c + 1) >>> 6) : ℕ) : ℚ) / 9007199254740992

/-- `uniform(lo, hi) = lo + (hi-lo)*random()`, consuming two words. -/
def uniformF (g : ℕ → ℕ) (lo hi : ℚ) (c : ℕ) : ℚ × ℕ :=
  (lo + (hi - lo) * randomV g c, c + 2)

/-! ### Images and the external raster library -/

/-- An RGB raster: dimensions plus a pixel map (channels as integers). -/
structure Img where
  width : ℕ
  height : ℕ
  pix : ℕ → ℕ → ℤ × ℤ × ℤ

/-- External capabilities the script consumes: the Mersenne-Twister word
stream per seed, Gaussian blur on grayscale (`L`) and RGBA rasters, and the
rasterisation predicates of PIL's ellipse fill, line stroke and ellipse
outline (ring `i` of the vignette stands for the outline of radius
`hypot(w/2,h/2)·i/39`, stroke width 6).  Blur and draws keep the raster size,
which the pixel-map types record. -/
structure Prims where
  mkStream : ℕ → ℕ → ℕ
  blurL : ℚ → (ℕ → ℕ → ℤ) → (ℕ → ℕ → ℤ)
  blurA : ℚ → (ℕ → ℕ → ℤ × ℤ × ℤ × ℤ) → (ℕ → ℕ → ℤ × ℤ × ℤ × ℤ)
  circleHit : ℚ → ℚ → ℚ → ℕ → ℕ → Bool
  lineHit : ℚ → ℚ → ℚ → ℚ → ℤ → ℕ → ℕ → Bool
  ringHit : ℕ → ℕ → ℕ → ℕ → ℕ → Bool

/-! ### Palette selection (`_pick_palette`) -/

/-- The fixed 9-colour palette of the script. -/
def palette : List (ℤ × ℤ × ℤ) :=
  [(6, 10, 25), (15, 23, 42), (12, 74, 110), (2, 132, 199), (16, 185, 129),
   (99, 102, 241), (168, 85, 247), (244, 63, 94), (245, 158, 11)]

/-- `while c2 == c1: c2 = rng.choice(palette)` — draw `c2`, resampling while
it equals `c1`.  `rf` is the fuel of each inner `_randbelow`, the outer fuel
bounds the resampling loop. -/
def pickC2 (g : ℕ → ℕ) (c1v : ℤ × ℤ × ℤ) (rf : ℕ) :
    ℕ → ℕ → Option ((ℤ × ℤ × ℤ) × ℕ)
  | 0, _ => none
  | fuel + 1, c =>
      (randbelow g 9 rf c).bind fun ic =>
        if palette.getD ic.1 (0, 0, 0) = c1v then pickC2 g c1v rf fuel ic.2
        else some (palette.getD ic.1 (0, 0, 0), ic.2)

/-- `_pick_palette(seed)` on the generator stream `g`: `c1 = choice(palette)`,
`c2 = choice(palette)` resampled until it differs from `c1`, and
`accent = choice(palette)` with no constraint. -/
def pickPalette (g : ℕ → ℕ) (fuel : ℕ) :
    Option ((ℤ × ℤ × ℤ) × (ℤ × ℤ × ℤ) × (ℤ × ℤ × ℤ)) :=
  (randbelow g 9 fuel 0).bind fun i1c =>
    (pickC2 g (palette.getD i1c.1 (0, 0, 0)) fuel fuel i1c.2).bind fun c2c =>
      (randbelow g 9 fuel c2c.2).map fun i3c =>
        (palette.getD i1c.1 (0, 0, 0), c2c.1, palette.getD i3c.1 (0, 0, 0))

/-! ### Gradient renderer (`_make_gradient`) -/

/-- `_lerp(a, b, t) = int(round(a*(1.0-t) + b*t))`. -/
def lerpC (a b : ℤ) (t : ℚ) : ℤ := pyRound ((a : ℚ) * (1 - t) + (b : ℚ) * t)

/-- `_lerp_rgb`: channel-wise interpolation. -/
def lerpRGB (c1 c2 : ℤ × ℤ × ℤ) (t : ℚ) : ℤ × ℤ × ℤ :=
  (lerpC c1.1 c2.1 t, lerpC c1.2.1 c2.2.1 t, lerpC c1.2.2 c2.2.2 t)

/-- `t = y / (h - 1) if h > 1 else 0.0`. -/
def gradT (h y : ℕ) : ℚ := if 1 < h then (y : ℚ) / ((h : ℚ) - 1) else 0

/-- `_make_gradient`: a `w×h` image filled with `c1`, each row `y < h`
overdrawn with the interpolated colour (`draw.line((0, y, w, y), fill=col)`
covers the whole row). -/
def mkGradient (w h : ℕ) (c1 c2 : ℤ × ℤ × ℤ) : Img :=
  ⟨w, h, fun _ y => if y < h then lerpRGB c1 c2 (gradT h y) else c1⟩

/-! ### Shape overlay (`_add_shapes`) -/

/-- One translucent circle: centre, radius, fill colour and its alpha. -/
structure CircleCmd where
  cx : ℚ
  cy : ℚ
  r : ℚ
  base : ℤ × ℤ × ℤ
  alpha : ℤ

/-- One translucent line: endpoints, stroke width, colour and alpha. -/
structure LineCmd where
  x1 : ℚ
  y1 : ℚ
  x2 : ℚ
  y2 : ℚ
  lw : ℤ
  color : ℤ × ℤ × ℤ
  alpha : ℤ

/-- One circle draw: `x`,`y` from `uniform(-0.1,1.1)` scaled by the canvas,
`r = uniform(80,220)`, base colour accent with probability `random() < 0.6`
else white, `alpha = int(uniform(18,55))`.  Consumes 10 stream words. -/
def circleDraw (g : ℕ → ℕ) (acc : ℤ × ℤ × ℤ) (w h c : ℕ) : CircleCmd × ℕ :=
  let ux := uniformF g (-1/10) (11/10) c
  let uy := uniformF g (-1/10) (11/10) ux.2
  let ur := uniformF g 80 220 uy.2
  let p := randomV g ur.2
  let base := if p < 3/5 then acc else (255, 255, 255)
  let ua := uniformF g 18 55 (ur.2 + 2)
  ({ cx := ux.1 * w, cy := uy.1 * h, r := ur.1, base := base, alpha := pyInt ua.1 }, ua.2)

/-- One line draw: endpoints `uniform(0,w)`/`uniform(0,h)`,
`width = int(uniform(2,6))`, colour accent, `alpha = int(uniform(10,26))`.
Consumes 12 stream words. -/
def lineDraw (g : ℕ → ℕ) (acc : ℤ × ℤ × ℤ) (w h c : ℕ) : LineCmd × ℕ :=
  let ux1 := uniformF g 0 (w : ℚ) c
  let uy1 := uniformF g 0 (h : ℚ) ux1.2
  let ux2 := uniformF g 0 (w : ℚ) uy1.2
  let uy2 := uniformF g 0 (h : ℚ) ux2.2
  let uw := uniformF g 2 6 uy2.2
  let ua := uniformF g 10 26 uw.2
  ({ x1 := ux1.1, y1 := uy1.1, x2 := ux2.1, y2 := uy2.1,
     lw := pyInt uw.1, color := acc, alpha := pyInt ua.1 }, ua.2)

/-- `n` successive circle draws from the shared generator. -/
def circlesN (g : ℕ → ℕ) (acc : ℤ × ℤ × ℤ) (w h : ℕ) :
    ℕ → ℕ → List CircleCmd × ℕ
  | 0, c => ([], c)
  | n + 1, c =>
      let d := circleDraw g acc w h c
      let rest := circlesN g acc w h n d.2
      (d.1 :: rest.1, rest.2)

/-- `n` successive line draws from the shared generator. -/
def linesN (g : ℕ → ℕ) (acc : ℤ × ℤ × ℤ) (w h : ℕ) :
    ℕ → ℕ → List LineCmd × ℕ
  | 0, c => ([], c)
  | n + 1, c =>
      let d := lineDraw g acc w h c
      let rest := linesN g acc w h n d.2
      (d.1 :: rest.1, rest.2)

/-- The full draw sequence of `_add_shapes`: 22 circles, then 16 lines, from
one generator instance threaded sequentially. -/
def shapesDraws (g : ℕ → ℕ) (acc : ℤ × ℤ × ℤ) (w h c0 : ℕ) :
    List CircleCmd × List LineCmd × ℕ :=
  let cs := circlesN g acc w h 22 c0
  let ls := linesN g acc w h 16 cs.2
  (cs.1, ls.1, ls.2)

/-- The RGBA shape layer: transparent background, circles drawn first, lines
on top, each shape overwriting covered pixels with its fill. -/
def layerOf (P : Prims) (cs : List CircleCmd) (ls : List LineCmd) :
    ℕ → ℕ → ℤ × ℤ × ℤ × ℤ :=
  let afterC := cs.foldl
    (fun f cmd => fun x y =>
      if P.circleHit cmd.cx cmd.cy cmd.r x y then
        (cmd.base.1, cmd.base.2.1, cmd.base.2.2, cmd.alpha)
      else f x y)
    (fun _ _ => (0, 0, 0, 0))
  ls.foldl
    (fun f cmd => fun x y =>
      if P.lineHit cmd.x1 cmd.y1 cmd.x2 cmd.y2 cmd.lw x y then
        (cmd.color.1, cmd.color.2.1, cmd.color.2.2, cmd.alpha)
      else f x y)
    afterC

/-- `Image.alpha_composite` of an RGBA foreground over an opaque RGB
background, flattened back to RGB: each channel
`(fg·a + bg·(255-a)) / 255`, rounded. -/
def overPix (bg : ℤ × ℤ × ℤ) (fg : ℤ × ℤ × ℤ × ℤ) : ℤ × ℤ × ℤ :=
  let a := fg.2.2.2
  (pyRound (((fg.1 * a + bg.1 * (255 - a) : ℤ) : ℚ) / 255),
   pyRound (((fg.2.1 * a + bg.2.1 * (255 - a) : ℤ) : ℚ) / 255),
   pyRound (((fg.2.2.1 * a + bg.2.2 * (255 - a) : ℤ) : ℚ) / 255))

/-- `_add_shapes`: draw the 22+16 shapes on a fresh RGBA layer with a fresh
`random.Random(seed)`, blur the layer (radius 14), alpha-composite it over
the image. -/
def addShapes (P : Prims) (img : Img) (seed : ℕ) (acc : ℤ × ℤ × ℤ) : Img :=
  let g := P.mkStream seed
  let t := shapesDraws g acc img.width img.height 0
  let layer := P.blurA 14 (layerOf P t.1 t.2.1)
  ⟨img.width, img.height, fun x y => overPix (img.pix x y) (layer x y)⟩

/-! ### Grain overlay (`_add_grain`) -/

/-- `n` successive `randint(0, 255)` draws (`_randbelow(256)`, 9-bit draws
with rejection) threaded through the cursor. -/
def drawsN (g : ℕ → ℕ) (fuel : ℕ) : ℕ → ℕ → Option (List ℕ × ℕ)
  | 0, c => some ([], c)
  | n + 1, c =>
      (randbelow g 256 fuel c).bind fun vc =>
        (drawsN g fuel n vc.2).map fun lc => (vc.1 :: lc.1, lc.2)

/-- The `w·h` noise intensities of `_add_grain`, drawn row-major
(`for y: for x: pixels[x, y] = rng.randint(0, 255)`). -/
def grainRaw (g : ℕ → ℕ) (w h fuel : ℕ) : Option (List ℕ) :=
  (drawsN g fuel (w * h) 0).map (fun p => p.1)

/-- The noise channel after `GaussianBlur(1.2)` and `point(λv. int(v*0.18))`,
indexed row-major into the draw list. -/
def grainScaled (P : Prims) (l : List ℕ) (w : ℕ) : ℕ → ℕ → ℤ :=
  let blurred := P.blurL (6/5) (fun x y => ((l.getD (y * w + x) 0 : ℕ) : ℤ))
  fun x y => pyInt ((blurred x y : ℚ) * (18/100))

/-- `Image.blend(img, noise_rgb, 0.18)`: channel-wise
`0.82·img + 0.18·noise`, rounded. -/
def blendPix (p : ℤ × ℤ × ℤ) (nv : ℤ) : ℤ × ℤ × ℤ :=
  (pyRound ((82 * (p.1 : ℚ) + 18 * (nv : ℚ)) / 100),
   pyRound ((82 * (p.2.1 : ℚ) + 18 * (nv : ℚ)) / 100),
   pyRound ((82 * (p.2.2 : ℚ) + 18 * (nv : ℚ)) / 100))

/-- `_add_grain`: noise raster from `random.Random(seed + 1337)`, blurred,
scaled by 0.18, replicated to RGB and blended at factor 0.18. -/
def addGrain (P : Prims) (img : Img) (seed fuel : ℕ) : Option Img :=
  (grainRaw (P.mkStream (seed + 1337)) img.width img.height fuel).map
    (fun l =>
      ⟨img.width, img.height,
       fun x y => blendPix (img.pix x y) (grainScaled P l img.width x y)⟩)

/-! ### Vignette (`_add_vignette`) -/

/-- `steps = 40`. -/
def vigSteps : ℕ := 40

/-- `t = i / (steps - 1) if steps > 1 else 1.0`. -/
def vigT (i : ℕ) : ℚ :=
  if 1 < vigSteps then (i : ℚ) / ((vigSteps : ℚ) - 1) else 1

/-- Ring `i`'s outline alpha: `int(255 * t**2 * strength)`. -/
def ringAlpha (strength : ℚ) (i : ℕ) : ℤ := pyInt (255 * vigT i ^ 2 * strength)

/-- The vignette mask: black (`0`) background, the 40 concentric ellipse
outlines drawn in order, each overwriting covered pixels with its alpha. -/
def vignetteMask (P : Prims) (w h : ℕ) (strength : ℚ) : ℕ → ℕ → ℤ :=
  (List.range vigSteps).foldl
    (fun m i => fun x y => if P.ringHit w h i x y then ringAlpha strength i else m x y)
    (fun _ _ => 0)

/-- The mask after `GaussianBlur(18)`. -/
def vignetteMaskB (P : Prims) (w h : ℕ) (strength : ℚ) : ℕ → ℕ → ℤ :=
  P.blurL 18 (vignetteMask P w h strength)

/-- `Image.composite(dark, img, mask)` with `dark` solid black: each channel
`img·(255 - m) / 255`, rounded (mask 255 → black, 0 → original). -/
def compositeBlack (p : ℤ × ℤ × ℤ) (m : ℤ) : ℤ × ℤ × ℤ :=
  (pyRound (((p.1 * (255 - m) : ℤ) : ℚ) / 255),
   pyRound (((p.2.1 * (255 - m) : ℤ) : ℚ) / 255),
   pyRound (((p.2.2 * (255 - m) : ℤ) : ℚ) / 255))

/-- `_add_vignette(img, strength)`. -/
def addVignette (P : Prims) (img : Img) (strength : ℚ) : Img :=
  ⟨img.width, img.height,
   fun x y => compositeBlack (img.pix x y)
     (vignetteMaskB P img.width img.height strength x y)⟩

/-! ### The full pipeline (`main`) -/

/-- The pipeline from the derived seed: palette, gradient, shapes, grain,
vignette (default strength 0.55). -/
def generateFromSeed (P : Prims) (seed w h fuel : ℕ) : Option Img :=
  (pickPalette (P.mkStream seed) fuel).bind fun pal =>
    (addGrain P (addShapes P (mkGradient w h pal.1 pal.2.1) seed pal.2.2) seed fuel).map
      fun img3 => addVignette P img3 (55/100)

/-- `main`: derive the seed from the slug's UTF-8 bytes, then run the
pipeline. -/
def generate (P : Prims) (slug : List ℕ) (w h fuel : ℕ) : Option Img :=
  generateFromSeed P (seedFromSlug slug) w h fuel

/-! ### Concrete instantiations used by the witnesses -/

/-- A concrete word stream: alternating `0` and `2^28`, so that 4-bit draws
alternate `0, 1` (making palette selection succeed) and 9-bit draws stay
below 256 (making `randint(0,255)` succeed at once). -/
def streamW : ℕ → ℕ := fun n => n % 2 * 268435456

/-- Concrete primitives: the witness stream for every seed, identity blurs,
and hit-predicates that never fire. -/
def primsW : Prims where
  mkStream := fun _ => streamW
  blurL := fun _ f => f
  blurA := fun _ f => f
  circleHit := fun _ _ _ _ _ => false
  lineHit := fun _ _ _ _ _ _ _ => false
  ringHit := fun _ _ _ _ _ => false

/-- Like `primsW`, but the stream is replaced by a junk stream at every seed
other than 1337 (= `0 + 1337`, the grain seed used below). -/
def primsW2 : Prims :=
  { primsW with mkStream := fun s n => if s = 1337 then streamW n else 0 }

/-- A concrete 1×1 black image. -/
def img0 : Img := ⟨1, 1, fun _ _ => (0, 0, 0)⟩

/-- Channel range predicate: all three channels in `[0, 255]`. -/
def inRange (c : ℤ × ℤ × ℤ) : Prop :=
  0 ≤ c.1 ∧ c.1 ≤ 255 ∧ 0 ≤ c.2.1 ∧ c.2.1 ≤ 255 ∧ 0 ≤ c.2.2 ∧ c.2.2 ≤ 255

/-! ## Helper lemmas -/

theorem pyRound_intCast (n : ℤ) : pyRound (n : ℚ) = n := by
  simp [pyRound, Int.floor_intCast]

theorem floor_le_pyRound (q : ℚ) : ⌊q⌋ ≤ pyRound q := by
  unfold pyRound
  split_ifs <;> omega

theorem pyRound_le_ceil (q : ℚ) : pyRound q ≤ ⌈q⌉ := by
  have hfc : ⌊q⌋ ≤ ⌈q⌉ := Int.floor_le_ceil q
  have key : (1:ℚ)/2 ≤ q - (⌊q⌋ : ℚ) → ⌊q⌋ + 1 ≤ ⌈q⌉ := by
    intro hgt
    have : (⌊q⌋ : ℚ) < q := by linarith
    have : ⌊q⌋ < ⌈q⌉ := Int.lt_ceil.mpr this
    omega
  unfold pyRound
  split_ifs with h1 h2 h3
  · exact hfc
  · exact key (by linarith)
  · exact hfc
  · exact key (by linarith)

theorem pyRound_bounds {a b : ℤ} {q : ℚ} (ha : (a : ℚ) ≤ q) (hb : q ≤ (b : ℚ)) :
    a ≤ pyRound q ∧ pyRound q ≤ b :=
  ⟨le_trans (Int.le_floor.mpr ha) (floor_le_pyRound q),
   le_trans (pyRound_le_ceil q) (Int.ceil_le.mpr hb)⟩

theorem pyInt_of_nonneg {q : ℚ} (h : 0 ≤ q) : pyInt q = ⌊q⌋ := by
  unfold pyInt
  rw [if_neg (not_lt.mpr h)]

theorem pyInt_bounds {a b : ℤ} {q : ℚ} (h0 : 0 ≤ q) (ha : (a : ℚ) ≤ q)
    (hb : q < (b : ℚ)) : a ≤ pyInt q ∧ pyInt q ≤ b - 1 := by
  rw [pyInt_of_nonneg h0]
  have h1 : a ≤ ⌊q⌋ := Int.le_floor.mpr ha
  have h2 : ⌊q⌋ < b := Int.floor_lt.mpr hb
  omega

theorem randomV_nonneg (g : ℕ → ℕ) (c : ℕ) : 0 ≤ randomV g c := by
  unfold randomV
  positivity

theorem randomV_lt_one (g : ℕ → ℕ) (c : ℕ) : randomV g c < 1 := by
  unfold randomV
  rw [div_lt_one (by norm_num)]
  have ha : genrand g c >>> 5 < 134217728 := by
    rw [Nat.shiftRight_eq_div_pow]
    have : genrand g c < 4294967296 := Nat.mod_lt _ (by norm_num)
    omega
  have hb : genrand g (c + 1) >>> 6 < 67108864 := by
    rw [Nat.shiftRight_eq_div_pow]
    have : genrand g (c + 1) < 4294967296 := Nat.mod_lt _ (by norm_num)
    omega
  have hmul : genrand g c >>> 5 * 67108864 ≤ 134217727 * 67108864 :=
    Nat.mul_le_mul_right _ (by omega)
  exact_mod_cast show
    (genrand g c >>> 5 * 67108864 + genrand g (c + 1) >>> 6 : ℕ) < 9007199254740992 by omega

theorem uniformF_fst (g : ℕ → ℕ) (lo hi : ℚ) (c : ℕ) :
    (uniformF g lo hi c).1 = lo + (hi - lo) * randomV g c := rfl

theorem uniformF_snd (g : ℕ → ℕ) (lo hi : ℚ) (c : ℕ) :
    (uniformF g lo hi c).2 = c + 2 := rfl

theorem uniformF_mem (g : ℕ → ℕ) (lo hi : ℚ) (c : ℕ) (h : lo < hi) :
    lo ≤ (uniformF g lo hi c).1 ∧ (uniformF g lo hi c).1 < hi := by
  rw [uniformF_fst]
  constructor
  · have := mul_nonneg (sub_nonneg.mpr h.le) (randomV_nonneg g c)
    linarith
  · have hx := randomV_lt_one g c
    have : (hi - lo) * randomV g c < (hi - lo) * 1 :=
      mul_lt_mul_of_pos_left hx (by linarith)
    linarith

theorem pyInt_uniform_bounds (g : ℕ → ℕ) (c : ℕ) {lo hi : ℚ} {a b : ℤ}
    (hla : (a : ℚ) = lo) (hhb : (b : ℚ) = hi) (h0 : 0 ≤ lo) (hab : lo < hi) :
    a ≤ pyInt (uniformF g lo hi c).1 ∧ pyInt (uniformF g lo hi c).1 ≤ b - 1 := by
  obtain ⟨hl, hr⟩ := uniformF_mem g lo hi c hab
  exact pyInt_bounds (le_trans h0 hl) (by rw [hla]; exact hl) (by rw [hhb]; exact hr)

theorem randbelow_lt (g : ℕ → ℕ) (n : ℕ) :
    ∀ fuel c v c', randbelow g n fuel c = some (v, c') → v < n := by
  intro fuel
  induction fuel with
  | zero => intro c v c' h; simp [randbelow] at h
  | succ f ih =>
      intro c v c' h
      simp only [randbelow] at h
      split at h
      · rename_i hlt
        cases h
        exact hlt
      · exact ih _ _ _ h

theorem circleDraw_alpha (g : ℕ → ℕ) (a : ℤ × ℤ × ℤ) (w h c : ℕ) :
    18 ≤ (circleDraw g a w h c).1.alpha ∧ (circleDraw g a w h c).1.alpha ≤ 55 := by
  have key := fun c' : ℕ => @pyInt_uniform_bounds g c' 18 55 18 55
    (by norm_num) (by norm_num) (by norm_num) (by norm_num)
  simp only [circleDraw, uniformF_snd]
  exact ⟨(key (c + 2 + 2 + 2 + 2)).1, by have := (key (c + 2 + 2 + 2 + 2)).2; omega⟩

theorem circleDraw_snd (g : ℕ → ℕ) (a : ℤ × ℤ × ℤ) (w h c : ℕ) :
    (circleDraw g a w h c).2 = c + 10 := by
  simp only [circleDraw, uniformF_snd]

theorem lineDraw_bounds (g : ℕ → ℕ) (a : ℤ × ℤ × ℤ) (w h c : ℕ) :
    (2 ≤ (lineDraw g a w h c).1.lw ∧ (lineDraw g a w h c).1.lw ≤ 6) ∧
    10 ≤ (lineDraw g a w h c).1.alpha ∧ (lineDraw g a w h c).1.alpha ≤ 26 := by
  have keyw := fun c' : ℕ => @pyInt_uniform_bounds g c' 2 6 2 6
    (by norm_num) (by norm_num) (by norm_num) (by norm_num)
  have keya := fun c' : ℕ => @pyInt_uniform_bounds g c' 10 26 10 26
    (by norm_num) (by norm_num) (by norm_num) (by norm_num)
  simp only [lineDraw, uniformF_snd]
  refine ⟨⟨(keyw (c + 2 + 2 + 2 + 2)).1, ?_⟩, (keya (c + 2 + 2 + 2 + 2 + 2)).1, ?_⟩
  · have := (keyw (c + 2 + 2 + 2 + 2)).2; omega
  · have := (keya (c + 2 + 2 + 2 + 2 + 2)).2; omega

theorem lineDraw_snd (g : ℕ → ℕ) (a : ℤ × ℤ × ℤ) (w h c : ℕ) :
    (lineDraw g a w h c).2 = c + 12 := by
  simp only [lineDraw, uniformF_snd]

theorem circlesN_spec (g : ℕ → ℕ) (a : ℤ × ℤ × ℤ) (w h : ℕ) :
    ∀ n c, (circlesN g a w h n c).1.length = n ∧
      (circlesN g a w h n c).2 = c + 10 * n ∧
      ∀ cm ∈ (circlesN g a w h n c).1, 18 ≤ cm.alpha ∧ cm.alpha ≤ 55 := by
  intro n
  induction n with
  | zero => intro c; simp [circlesN]
  | succ k ih =>
      intro c
      obtain ⟨hlen, hcur, hmem⟩ := ih (circleDraw g a w h c).2
      refine ⟨by simp [circlesN, hlen], ?_, ?_⟩
      · show (circlesN g a w h k (circleDraw g a w h c).2).2 = c + 10 * (k + 1)
        rw [hcur, circleDraw_snd]
        ring
      · intro cm hm
        rcases List.mem_cons.mp hm with hh | ht
        · rw [hh]; exact circleDraw_alpha g a w h c
        · exact hmem cm ht

theorem linesN_spec (g : ℕ → ℕ) (a : ℤ × ℤ × ℤ) (w h : ℕ) :
    ∀ n c, (linesN g a w h n c).1.length = n ∧
      (linesN g a w h n c).2 = c + 12 * n ∧
      ∀ lm ∈ (linesN g a w h n c).1,
        (2 ≤ lm.lw ∧ lm.lw ≤ 6) ∧ 10 ≤ lm.alpha ∧ lm.alpha ≤ 26 := by
  intro n
  induction n with
  | zero => intro c; simp [linesN]
  | succ k ih =>
      intro c
      obtain ⟨hlen, hcur, hmem⟩ := ih (lineDraw g a w h c).2
      refine ⟨by simp [linesN, hlen], ?_, ?_⟩
      · show (linesN g a w h k (lineDraw g a w h c).2).2 = c + 12 * (k + 1)
        rw [hcur, lineDraw_snd]
        ring
      · intro lm hm
        rcases List.mem_cons.mp hm with hh | ht
        · rw [hh]; exact lineDraw_bounds g a w h c
        · exact hmem lm ht

theorem drawsN_spec (g : ℕ → ℕ) (fuel : ℕ) :
    ∀ n c l c', drawsN g fuel n c = some (l, c') →
      l.length = n ∧ ∀ v ∈ l, v < 256 := by
  intro n
  induction n with
  | zero =>
      intro c l c' h
      simp only [drawsN, Option.some.injEq, Prod.mk.injEq] at h
      obtain ⟨rfl, -⟩ := h
      simp
  | succ k ih =>
      intro c l c' h
      simp only [drawsN] at h
      obtain ⟨vc, hrb, hmap⟩ := Option.bind_eq_some.mp h
      obtain ⟨lc, hd, heq⟩ := Option.map_eq_some'.mp hmap
      obtain ⟨v, c2⟩ := vc
      obtain ⟨l2, c3⟩ := lc
      cases heq
      obtain ⟨hlen, hmem⟩ := ih c2 l2 c3 hd
      refine ⟨by simp [hlen], ?_⟩
      intro x hx
      rcases List.mem_cons.mp hx with hh | ht
      · rw [hh]; exact randbelow_lt g 256 fuel c v c2 hrb
      · exact hmem x ht

theorem pickC2_ne (g : ℕ → ℕ) (c1v : ℤ × ℤ × ℤ) (rf : ℕ) :
    ∀ fuel c res, pickC2 g c1v rf fuel c = some res → res.1 ≠ c1v := by
  intro fuel
  induction fuel with
  | zero => intro c res h; simp [pickC2] at h
  | succ k ih =>
      intro c res h
      simp only [pickC2] at h
      obtain ⟨ic, hrb, hf⟩ := Option.bind_eq_some.mp h
      split at hf
      · exact ih ic.2 res hf
      · rename_i hne
        cases hf
        exact hne

theorem hexVal_aux (ds : List ℕ) :
    ∀ a : ℕ, (∀ d ∈ ds, d < 16) →
      ds.foldl (fun a d => 16 * a + d) a < (a + 1) * 16 ^ ds.length := by
  induction ds with
  | nil => intro a _; simp
  | cons d t ih =>
      intro a hd
      simp only [List.foldl_cons, List.length_cons]
      have h1 := ih (16 * a + d) (fun x hx => hd x (List.mem_cons_of_mem _ hx))
      have hdlt : d < 16 := hd d (List.mem_cons_self _ _)
      have h2 : (16 * a + d + 1) * 16 ^ t.length ≤ (16 * (a + 1)) * 16 ^ t.length :=
        Nat.mul_le_mul_right _ (by omega)
      calc t.foldl (fun a d => 16 * a + d) (16 * a + d)
          < (16 * a + d + 1) * 16 ^ t.length := h1
        _ ≤ (16 * (a + 1)) * 16 ^ t.length := h2
        _ = (a + 1) * 16 ^ (t.length + 1) := by ring

theorem hexVal_lt (ds : List ℕ) (h : ∀ d ∈ ds, d < 16) :
    hexVal ds < 16 ^ ds.length := by
  have := hexVal_aux ds 0 h
  simpa [hexVal] using this

theorem md5Hex_digits (msg : List ℕ) : ∀ d ∈ md5Hex msg, d < 16 := by
  unfold md5Hex
  generalize md5Digest msg = bs
  suffices aux : ∀ (l : List ℕ) (acc : List ℕ), (∀ d ∈ acc, d < 16) →
      ∀ d ∈ l.foldr (fun b a => (b / 16) % 16 :: b % 256 % 16 :: a) acc, d < 16 by
    exact aux bs [] (by simp)
  intro l
  induction l with
  | nil => intro acc h; simpa
  | cons b t ih =>
      intro acc h d hd
      simp only [List.foldr_cons] at hd
      rcases List.mem_cons.mp hd with h1 | h2
      · rw [h1]; exact Nat.mod_lt _ (by norm_num)
      · rcases List.mem_cons.mp h2 with h3 | h4
        · rw [h3]; exact Nat.mod_lt _ (by norm_num)
        · exact ih acc h d h4

theorem seedFromSlug_lt (slug : List ℕ) : seedFromSlug slug < 2 ^ 32 := by
  unfold seedFromSlug
  have hdig : ∀ d ∈ (md5Hex slug).take 8, d < 16 := fun d hd =>
    md5Hex_digits slug d (List.take_subset 8 _ hd)
  have hlen : ((md5Hex slug).take 8).length ≤ 8 := by
    simp [List.length_take]
  calc hexVal ((md5Hex slug).take 8)
      < 16 ^ ((md5Hex slug).take 8).length := hexVal_lt _ hdig
    _ ≤ 16 ^ 8 := Nat.pow_le_pow_right (by norm_num) hlen
    _ = 2 ^ 32 := by norm_num

theorem lerpC_zero (a b : ℤ) : lerpC a b 0 = a := by
  unfold lerpC
  rw [show (a : ℚ) * (1 - 0) + (b : ℚ) * 0 = ((a : ℤ) : ℚ) by ring]
  exact pyRound_intCast a

theorem lerpC_one (a b : ℤ) : lerpC a b 1 = b := by
  unfold lerpC
  rw [show (a : ℚ) * (1 - 1) + (b : ℚ) * 1 = ((b : ℤ) : ℚ) by ring]
  exact pyRound_intCast b

theorem lerpRGB_zero (c1 c2 : ℤ × ℤ × ℤ) : lerpRGB c1 c2 0 = c1 := by
  unfold lerpRGB
  rw [lerpC_zero, lerpC_zero, lerpC_zero]

theorem lerpRGB_one (c1 c2 : ℤ × ℤ × ℤ) : lerpRGB c1 c2 1 = c2 := by
  unfold lerpRGB
  rw [lerpC_one, lerpC_one, lerpC_one]

theorem lerpC_range {a b : ℤ} {t : ℚ} (ha : 0 ≤ a ∧ a ≤ 255) (hb : 0 ≤ b ∧ b ≤ 255)
    (ht : 0 ≤ t ∧ t ≤ 1) : 0 ≤ lerpC a b t ∧ lerpC a b t ≤ 255 := by
  unfold lerpC
  have haQ : (0 : ℚ) ≤ (a : ℚ) := by exact_mod_cast ha.1
  have haQ' : (a : ℚ) ≤ 255 := by exact_mod_cast ha.2
  have hbQ : (0 : ℚ) ≤ (b : ℚ) := by exact_mod_cast hb.1
  have hbQ' : (b : ℚ) ≤ 255 := by exact_mod_cast hb.2
  have h1 : (a : ℚ) * (1 - t) ≤ 255 * (1 - t) :=
    mul_le_mul_of_nonneg_right haQ' (by linarith [ht.2])
  have h2 : (b : ℚ) * t ≤ 255 * t := mul_le_mul_of_nonneg_right hbQ' ht.1
  refine pyRound_bounds (a := 0) (b := 255) ?_ ?_
  · push_cast
    exact add_nonneg (mul_nonneg haQ (by linarith [ht.2])) (mul_nonneg hbQ ht.1)
  · push_cast
    linarith

theorem ringAlpha_le140 {i : ℕ} (hi : i < 40) : ringAlpha (55/100) i ≤ 140 := by
  unfold ringAlpha
  have htv : vigT i = (i : ℚ) / 39 := by
    simp [vigT, vigSteps]
    norm_num
  have ht0 : 0 ≤ vigT i := by
    rw [htv]; positivity
  have ht1 : vigT i ≤ 1 := by
    rw [htv, div_le_one (by norm_num)]
    exact_mod_cast Nat.le_of_lt_succ hi
  have hv : 255 * vigT i ^ 2 * (55/100) ≤ 561/4 := by nlinarith
  have h0 : 0 ≤ 255 * vigT i ^ 2 * (55/100) := by positivity
  rw [pyInt_of_nonneg h0]
  have : ⌊255 * vigT i ^ 2 * (55/100)⌋ < 141 :=
    Int.floor_lt.mpr (lt_of_le_of_lt hv (by norm_num))
  omega

theorem vignetteMask_le (P : Prims) (w h : ℕ) {B : ℤ} (s : ℚ) (hB : 0 ≤ B)
    (hring : ∀ i < vigSteps, ringAlpha s i ≤ B) :
    ∀ x y, vignetteMask P w h s x y ≤ B := by
  unfold vignetteMask
  suffices aux : ∀ (l : List ℕ) (m0 : ℕ → ℕ → ℤ), (∀ i ∈ l, ringAlpha s i ≤ B) →
      (∀ x y, m0 x y ≤ B) →
      ∀ x y, (l.foldl
        (fun m i => fun x y => if P.ringHit w h i x y then ringAlpha s i else m x y)
        m0) x y ≤ B by
    exact aux (List.range vigSteps) _
      (fun i hi => hring i (List.mem_range.mp hi)) (fun _ _ => hB)
  intro l
  induction l with
  | nil => intro m0 _ hm; simpa
  | cons a t ih =>
      intro m0 hl hm x y
      simp only [List.foldl_cons]
      refine ih _ (fun i hi => hl i (List.mem_cons_of_mem _ hi)) ?_ x y
      intro x' y'
      by_cases hh : P.ringHit w h a x' y'
      · simp only [hh, if_true]
        exact hl a (List.mem_cons_self _ _)
      · simp only [hh, if_false]
        exact hm x' y'

/-! ## Known-answer checks for the MD5 embedding

`md5("")` starts `d41d8cd9…` and `md5("abc")` starts `90015098…`; the derived
seeds are the corresponding 32-bit integers. -/

set_option maxRecDepth 1000000 in
theorem md5_kat_empty : seedFromSlug [] = 0xd41d8cd9 := by decide

set_option maxRecDepth 1000000 in
theorem md5_kat_abc : seedFromSlug [97, 98, 99] = 0x90015098 := by decide

/-! ## Claim theorems -/

/-- C1: the generation pipeline is deterministic — for every slug and every
positive width and height, running the full pipeline (seed derivation,
palette selection, gradient, shapes, grain, vignette) twice with identical
inputs yields identical output images.  In the embedding the pipeline is a
total function of its explicit inputs (slug bytes, dimensions, fuel, and the
external primitives), so two runs coincide, and in particular two observed
outputs of the same invocation are equal. -/
theorem pipeline_deterministic (P : Prims) (slug : List ℕ) (w h fuel : ℕ)
    (_hw : 0 < w) (_hh : 0 < h) :
    generate P slug w h fuel = generate P slug w h fuel ∧
    ∀ out1 out2, generate P slug w h fuel = some out1 →
      generate P slug w h fuel = some out2 → out1 = out2 := by
  refine ⟨rfl, ?_⟩
  intro out1 out2 h1 h2
  rw [h1] at h2
  exact Option.some.inj h2

theorem pipeline_deterministic_witness :
    0 < 1 ∧ generate primsW [] 1 1 20 = generate primsW [] 1 1 20 :=
  ⟨Nat.one_pos, (pipeline_deterministic primsW [] 1 1 20 Nat.one_pos Nat.one_pos).1⟩

set_option maxRecDepth 100000 in
/-- C2: for every seed (hence for every word stream the seeded generator can
produce), palette selection returns `c1 ≠ c2` — the `c2` draw is resampled
until it differs from `c1` — while the accent draw has no distinctness
constraint and can equal `c1`, witnessed by a concrete stream on which the
accent equals `c1`. -/
theorem palette_c1_ne_c2 :
    (∀ (g : ℕ → ℕ) (fuel : ℕ) r, pickPalette g fuel = some r → r.1 ≠ r.2.1) ∧
    ∃ g : ℕ → ℕ, ∃ fuel : ℕ, ∃ r, pickPalette g fuel = some r ∧ r.2.2 = r.1 := by
  constructor
  · intro g fuel r h
    simp only [pickPalette] at h
    obtain ⟨i1c, hrb1, h2⟩ := Option.bind_eq_some.mp h
    obtain ⟨c2c, hc2, h3⟩ := Option.bind_eq_some.mp h2
    obtain ⟨i3c, hrb3, heq⟩ := Option.map_eq_some'.mp h3
    have hne := pickC2_ne g (palette.getD i1c.1 (0, 0, 0)) fuel fuel i1c.2 c2c hc2
    subst heq
    exact Ne.symm hne
  · exact ⟨streamW, 2, ((6, 10, 25), (15, 23, 42), (6, 10, 25)), by decide, rfl⟩

set_option maxRecDepth 100000 in
theorem palette_c1_ne_c2_witness :
    ((6, 10, 25) : ℤ × ℤ × ℤ) ≠ ((15, 23, 42) : ℤ × ℤ × ℤ) :=
  palette_c1_ne_c2.1 streamW 2 ((6, 10, 25), (15, 23, 42), (6, 10, 25)) (by decide)

/-- C3: for every width `w ≥ 1`, height `h > 1` and in-range colours, each
gradient row `y` carries the single colour whose channels are
`round(c1·(1-t) + c2·t)` at `t = y/(h-1)`, every channel stays in `[0,255]`,
the top row equals `c1` exactly and the bottom row equals `c2` exactly. -/
theorem gradient_rows_spec (w h : ℕ) (c1v c2v : ℤ × ℤ × ℤ)
    (hw : 1 ≤ w) (hh : 1 < h) (h1 : inRange c1v) (h2 : inRange c2v) :
    (∀ x y, y < h →
      (mkGradient w h c1v c2v).pix x y = lerpRGB c1v c2v ((y : ℚ) / ((h : ℚ) - 1)) ∧
      inRange ((mkGradient w h c1v c2v).pix x y)) ∧
    (∀ x, (mkGradient w h c1v c2v).pix x 0 = c1v ∧
      (mkGradient w h c1v c2v).pix x (h - 1) = c2v) := by
  have hpix : ∀ x y, y < h →
      (mkGradient w h c1v c2v).pix x y = lerpRGB c1v c2v ((y : ℚ) / ((h : ℚ) - 1)) := by
    intro x y hy
    simp only [mkGradient]
    rw [if_pos hy]
    simp [gradT, hh]
  have hhQ : (1 : ℚ) < (h : ℚ) := by exact_mod_cast hh
  constructor
  · intro x y hy
    refine ⟨hpix x y hy, ?_⟩
    rw [hpix x y hy]
    have ht0 : 0 ≤ (y : ℚ) / ((h : ℚ) - 1) :=
      div_nonneg (Nat.cast_nonneg y) (by linarith)
    have hyQ : (y : ℚ) + 1 ≤ (h : ℚ) := by exact_mod_cast Nat.succ_le_of_lt hy
    have ht1 : (y : ℚ) / ((h : ℚ) - 1) ≤ 1 := by
      rw [div_le_one (by linarith)]
      linarith
    have r1 := lerpC_range (a := c1v.1) (b := c2v.1)
      ⟨h1.1, h1.2.1⟩ ⟨h2.1, h2.2.1⟩ ⟨ht0, ht1⟩
    have r2 := lerpC_range (a := c1v.2.1) (b := c2v.2.1)
      ⟨h1.2.2.1, h1.2.2.2.1⟩ ⟨h2.2.2.1, h2.2.2.2.1⟩ ⟨ht0, ht1⟩
    have r3 := lerpC_range (a := c1v.2.2) (b := c2v.2.2)
      ⟨h1.2.2.2.2.1, h1.2.2.2.2.2⟩ ⟨h2.2.2.2.2.1, h2.2.2.2.2.2⟩ ⟨ht0, ht1⟩
    exact ⟨r1.1, r1.2, r2.1, r2.2, r3.1, r3.2⟩
  · intro x
    constructor
    · rw [hpix x 0 (by omega)]
      rw [show ((0 : ℕ) : ℚ) / ((h : ℚ) - 1) = 0 by simp]
      exact lerpRGB_zero _ _
    · rw [hpix x (h - 1) (by omega)]
      rw [show (((h - 1 : ℕ)) : ℚ) / ((h : ℚ) - 1) = 1 by
        rw [Nat.cast_sub (by omega)]
        push_cast
        exact div_self (by linarith)]
      exact lerpRGB_one _ _

theorem gradient_rows_spec_witness :
    (mkGradient 1 2 (0, 0, 0) (255, 255, 255)).pix 0 0 = (0, 0, 0) ∧
    (mkGradient 1 2 (0, 0, 0) (255, 255, 255)).pix 0 1 = (255, 255, 255) := by
  have H := gradient_rows_spec 1 2 (0, 0, 0) (255, 255, 255)
    (by norm_num) (by norm_num) (by norm_num [inRange]) (by norm_num [inRange])
  exact ⟨(H.2 0).1, (H.2 0).2⟩

/-- C4: for every seed (word stream) the shape overlay draws, from one
generator threaded sequentially, exactly 22 circles and then exactly 16
lines: each circle's fill alpha `int(uniform(18,55))` lies in `[18,55]`, each
line's stroke width `int(uniform(2,6))` lies in `[2,6]` and its alpha
`int(uniform(10,26))` in `[10,26]`; the circles consume exactly the first
220 words of the stream and the lines the following 192 (cursor
`c0 + 412`). -/
theorem shapes_draw_spec (g : ℕ → ℕ) (acc : ℤ × ℤ × ℤ) (w h c0 : ℕ) :
    shapesDraws g acc w h c0 =
      ((circlesN g acc w h 22 c0).1,
       (linesN g acc w h 16 (circlesN g acc w h 22 c0).2).1,
       (linesN g acc w h 16 (circlesN g acc w h 22 c0).2).2) ∧
    (circlesN g acc w h 22 c0).1.length = 22 ∧
    (linesN g acc w h 16 (circlesN g acc w h 22 c0).2).1.length = 16 ∧
    (∀ cm ∈ (circlesN g acc w h 22 c0).1, 18 ≤ cm.alpha ∧ cm.alpha ≤ 55) ∧
    (∀ lm ∈ (linesN g acc w h 16 (circlesN g acc w h 22 c0).2).1,
      (2 ≤ lm.lw ∧ lm.lw ≤ 6) ∧ 10 ≤ lm.alpha ∧ lm.alpha ≤ 26) ∧
    (circlesN g acc w h 22 c0).2 = c0 + 220 ∧
    (linesN g acc w h 16 (circlesN g acc w h 22 c0).2).2 = c0 + 412 := by
  obtain ⟨hcl, hcc, hcm⟩ := circlesN_spec g acc w h 22 c0
  obtain ⟨hll, hlc, hlm⟩ := linesN_spec g acc w h 16 (circlesN g acc w h 22 c0).2
  exact ⟨by simp only [shapesDraws], hcl, hll, hcm, hlm, by omega, by omega⟩

/-- C5: seed derivation hashes the UTF-8 slug bytes with MD5 and reads the
first 8 hex digits of the digest as a base-16 integer, so the seed is a
32-bit unsigned integer and identical slugs always yield identical seeds. -/
theorem seed_from_slug_spec (slug : List ℕ) :
    seedFromSlug slug < 2 ^ 32 ∧
    ∀ slug2, slug = slug2 → seedFromSlug slug = seedFromSlug slug2 :=
  ⟨seedFromSlug_lt slug, fun _ h => by rw [h]⟩

theorem seed_from_slug_spec_witness :
    seedFromSlug [] < 2 ^ 32 ∧ seedFromSlug [] = seedFromSlug [] :=
  ⟨(seed_from_slug_spec []).1, (seed_from_slug_spec []).2 [] rfl⟩

/-- C6: the grain stage draws from the generator seeded with `seed + 1337`
(its output depends on no other stream), every raw noise intensity lies in
`[0,255]` (one per pixel, `width·height` of them), the noise is blurred at
radius 1.2 and scaled by 0.18 (`grainScaled`), and each output channel is
`round(0.82·input + 0.18·noise)`. -/
theorem grain_spec (P : Prims) (img : Img) (seed fuel : ℕ) (out : Img)
    (h : addGrain P img seed fuel = some out) :
    (∀ l, grainRaw (P.mkStream (seed + 1337)) img.width img.height fuel = some l →
      l.length = img.width * img.height ∧ (∀ v ∈ l, v ≤ 255) ∧
      ∀ x y, out.pix x y =
        (pyRound ((82 * (((img.pix x y).1 : ℤ) : ℚ) + 18 * ((grainScaled P l img.width x y : ℤ) : ℚ)) / 100),
         pyRound ((82 * (((img.pix x y).2.1 : ℤ) : ℚ) + 18 * ((grainScaled P l img.width x y : ℤ) : ℚ)) / 100),
         pyRound ((82 * (((img.pix x y).2.2 : ℤ) : ℚ) + 18 * ((grainScaled P l img.width x y : ℤ) : ℚ)) / 100))) ∧
    (∀ P' : Prims, P'.blurL = P.blurL →
      P'.mkStream (seed + 1337) = P.mkStream (seed + 1337) →
      addGrain P' img seed fuel = some out) := by
  obtain ⟨l0, hraw, hbuild⟩ := Option.map_eq_some'.mp h
  constructor
  · intro l hl
    have hll : l0 = l := Option.some.inj (hraw.symm.trans hl)
    subst hll
    obtain ⟨p, hdr, hp⟩ := Option.map_eq_some'.mp hraw
    obtain ⟨lp, cp⟩ := p
    obtain ⟨hlen, hmem⟩ := drawsN_spec _ fuel (img.width * img.height) 0 lp cp hdr
    cases hp
    refine ⟨hlen, fun v hv => by have := hmem v hv; omega, ?_⟩
    cases hbuild
    intro x y
    rfl
  · intro P' hb hs
    unfold addGrain
    rw [hs]
    have hgs : grainScaled P' = grainScaled P := by
      funext l w x y
      simp only [grainScaled, hb]
    rw [hgs]
    unfold addGrain at h
    exact h

set_option maxRecDepth 1000000 in
theorem grain_spec_witness :
    (addGrain primsW img0 0 20).isSome = true ∧
    addGrain primsW2 img0 0 20 = addGrain primsW img0 0 20 := by
  have hsome : (addGrain primsW img0 0 20).isSome = true := rfl
  refine ⟨hsome, ?_⟩
  cases heq : addGrain primsW img0 0 20 with
  | none => rw [heq] at hsome; simp at hsome
  | some o =>
      have hstream : primsW2.mkStream (0 + 1337) = primsW.mkStream (0 + 1337) := rfl
      exact (grain_spec primsW img0 0 20 o heq).2 primsW2 rfl hstream

/-- C7: with height 1 (any width), the gradient renderer takes the `t = 0`
branch instead of dividing by `h - 1`, so no division is performed and the
output is a height-1 image in which every pixel equals `c1`. -/
theorem gradient_height_one_safe (w : ℕ) (c1v c2v : ℤ × ℤ × ℤ) :
    (mkGradient w 1 c1v c2v).height = 1 ∧
    ∀ x y, (mkGradient w 1 c1v c2v).pix x y = c1v := by
  refine ⟨rfl, ?_⟩
  intro x y
  simp only [mkGradient]
  by_cases hy : y < 1
  · rw [if_pos hy]
    rw [show gradT 1 y = 0 by simp [gradT]]
    exact lerpRGB_zero _ _
  · rw [if_neg hy]

/-- C8: every pipeline stage produces a raster of exactly its input's
dimensions (the gradient of the requested `w × h`), so the final output image
matches the requested `--width`/`--height` exactly, for all positive
dimensions. -/
theorem dimension_fidelity (P : Prims) (w h : ℕ) (_hw : 0 < w) (_hh : 0 < h)
    (c1v c2v acc : ℤ × ℤ × ℤ) (img : Img) (seed fuel : ℕ) (strength : ℚ)
    (slug : List ℕ) :
    ((mkGradient w h c1v c2v).width = w ∧ (mkGradient w h c1v c2v).height = h) ∧
    ((addShapes P img seed acc).width = img.width ∧
      (addShapes P img seed acc).height = img.height) ∧
    (∀ out, addGrain P img seed fuel = some out →
      out.width = img.width ∧ out.height = img.height) ∧
    ((addVignette P img strength).width = img.width ∧
      (addVignette P img strength).height = img.height) ∧
    (∀ out, generate P slug w h fuel = some out → out.width = w ∧ out.height = h) := by
  refine ⟨⟨rfl, rfl⟩, ⟨rfl, rfl⟩, ?_, ⟨rfl, rfl⟩, ?_⟩
  · intro out hout
    obtain ⟨l, -, hb⟩ := Option.map_eq_some'.mp hout
    cases hb
    exact ⟨rfl, rfl⟩
  · intro out hout
    unfold generate generateFromSeed at hout
    obtain ⟨pal, -, hmap⟩ := Option.bind_eq_some.mp hout
    obtain ⟨img3, hg, hv⟩ := Option.map_eq_some'.mp hmap
    obtain ⟨l, -, hb⟩ := Option.map_eq_some'.mp hg
    cases hb
    cases hv
    exact ⟨rfl, rfl⟩

set_option maxRecDepth 1000000 in
theorem dimension_fidelity_witness :
    (generate primsW [] 1 1 20).map Img.width = some 1 ∧
    (generate primsW [] 1 1 20).map Img.height = some 1 := by
  have hsome : (generate primsW [] 1 1 20).isSome = true := rfl
  cases heq : generate primsW [] 1 1 20 with
  | none => rw [heq] at hsome; simp at hsome
  | some o =>
      have H := (dimension_fidelity primsW 1 1 (by norm_num) (by norm_num)
        (0, 0, 0) (0, 0, 0) (0, 0, 0) img0 0 20 0 []).2.2.2.2 o heq
      simp [H.1, H.2]

/-- C9: the generated image depends on the slug only through the derived
seed — `main` factors as `generateFromSeed ∘ seedFromSlug`, so two slugs
with equal seeds produce identical images at the same dimensions. -/
theorem output_depends_only_on_seed (P : Prims) (s1 s2 : List ℕ) (w h fuel : ℕ)
    (hseed : seedFromSlug s1 = seedFromSlug s2) :
    generate P s1 w h fuel = generateFromSeed P (seedFromSlug s1) w h fuel ∧
    generate P s1 w h fuel = generate P s2 w h fuel := by
  refine ⟨rfl, ?_⟩
  unfold generate
  rw [hseed]

theorem output_depends_only_on_seed_witness :
    generate primsW [97] 1 1 20 = generateFromSeed primsW (seedFromSlug [97]) 1 1 20 ∧
    generate primsW [97] 1 1 20 = generate primsW [97] 1 1 20 :=
  output_depends_only_on_seed primsW [97] [97] 1 1 20 rfl

/-- C10: at the default strength 0.55 every vignette ring's outline alpha is
at most `int(255·0.55) = 140` (attained at the outermost ring), so — blur
being unable to raise a pixel above the maximum input value — the blurred
mask stays `≤ 140 < 255` everywhere and the composite keeps a positive
weight `255 - m > 0` on the input image at every pixel: no pixel is fully
replaced with black. -/
theorem vignette_mask_spec (P : Prims) (img : Img)
    (hb : ∀ (r : ℚ) (f : ℕ → ℕ → ℤ) (b : ℤ),
      (∀ x y, f x y ≤ b) → ∀ x y, P.blurL r f x y ≤ b) :
    ringAlpha (55/100) 39 = 140 ∧
    (∀ i < 40, ringAlpha (55/100) i ≤ 140) ∧
    (∀ x y, vignetteMaskB P img.width img.height (55/100) x y ≤ 140 ∧
      0 < 255 - vignetteMaskB P img.width img.height (55/100) x y) ∧
    (∀ x y, (addVignette P img (55/100)).pix x y =
      compositeBlack (img.pix x y) (vignetteMaskB P img.width img.height (55/100) x y)) := by
  have hmask : ∀ x y, vignetteMask P img.width img.height (55/100) x y ≤ 140 :=
    vignetteMask_le P _ _ _ (by norm_num) (fun i hi => ringAlpha_le140 hi)
  have hmb : ∀ x y, vignetteMaskB P img.width img.height (55/100) x y ≤ 140 := by
    unfold vignetteMaskB
    exact hb 18 _ 140 hmask
  refine ⟨?_, fun i hi => ringAlpha_le140 hi,
    fun x y => ⟨hmb x y, by have := hmb x y; omega⟩, fun x y => rfl⟩
  norm_num [ringAlpha, vigT, vigSteps, pyInt, Int.floor_eq_iff]

theorem vignette_mask_spec_witness :
    ringAlpha (55/100) 39 = 140 ∧ vignetteMaskB primsW 1 1 (55/100) 0 0 ≤ 140 := by
  have H := vignette_mask_spec primsW img0 (fun _ _ _ hf x y => hf x y)
  exact ⟨H.1, (H.2.2.1 0 0).1⟩

end CoverGen
